import Mathlib

/-!
Verification development for the H3-Pandas tabular grid-indexing layer.

The Python source is shallowly embedded:

* grid cell addresses are opaque keys, modelled by a type parameter
  (`Cell`); where the source sorts addresses (pandas `groupby` sorts its
  string keys) the parameter carries a linear order, of which lexicographic
  string order is an instance;
* dataframes are association lists `List (Cell × Row)` pairing each row's
  index entry with its column values, in row order;
* numeric column values are rationals (`ℚ`), mirroring the exact arithmetic
  the specified examples rely on;
* Python exceptions are an explicit result type (`PyResult`);
* the external grid library (`h3`) is abstracted by function parameters
  (`latlng_to_cell`, `grid_path_cells`, `k_ring`, `hex_ring`), since the
  repository only composes those primitives.
-/

namespace H3Pandas

/-! ## `util/decorator.py`: `sequential_deduplication`

The Python decorator wraps a generator: it keeps `last`, initially `None`,
and yields an element only when it differs from `last`, updating `last`
after every element.  `Option α` plays the role of the `None`-or-cell
variable. -/

/-- The stream filter of `sequential_deduplication` (util/decorator.py,
lines 50-57), with the `last` variable made explicit.  The wrapped
generator starts with `last = None`, i.e. `sequential_deduplication none`. -/
def sequential_deduplication {α : Type*} [DecidableEq α] :
    Option α → List α → List α
  | _, [] => []
  | last, x :: xs =>
    if some x = last then sequential_deduplication (some x) xs
    else x :: sequential_deduplication (some x) xs

section Dedup

variable {α : Type*} [DecidableEq α]

theorem sequential_deduplication_head_ne :
    ∀ (l : List α) (last : Option α) (z : α),
      (sequential_deduplication last l).head? = some z → some z ≠ last := by
  intro l
  induction l with
  | nil => intro last z h; simp [sequential_deduplication] at h
  | cons x xs ih =>
    intro last z h
    by_cases hx : some x = last
    · rw [sequential_deduplication, if_pos hx] at h
      rw [← hx]
      exact ih (some x) z h
    · rw [sequential_deduplication, if_neg hx] at h
      simp only [List.head?_cons, Option.some.injEq] at h
      subst h; exact hx

theorem sequential_deduplication_chain :
    ∀ (l : List α) (last : Option α),
      List.Chain' (· ≠ ·) (sequential_deduplication last l) := by
  intro l
  induction l with
  | nil => intro last; simp [sequential_deduplication]
  | cons x xs ih =>
    intro last
    by_cases hx : some x = last
    · rw [sequential_deduplication, if_pos hx]; exact ih (some x)
    · rw [sequential_deduplication, if_neg hx]
      rw [List.chain'_cons']
      refine ⟨?_, ih (some x)⟩
      intro y hy hxy
      exact sequential_deduplication_head_ne xs (some x) y (Option.mem_def.mp hy)
        (by rw [hxy])

theorem sequential_deduplication_of_chain :
    ∀ (l : List α) (last : Option α),
      List.Chain' (· ≠ ·) l → (∀ z, l.head? = some z → some z ≠ last) →
      sequential_deduplication last l = l := by
  intro l
  induction l with
  | nil => intro last _ _; rfl
  | cons x xs ih =>
    intro last hchain hhead
    have hx : some x ≠ last := hhead x rfl
    rw [sequential_deduplication, if_neg hx]
    rw [List.chain'_cons'] at hchain
    congr 1
    refine ih (some x) hchain.2 ?_
    intro z hz hzx
    exact (hchain.1 z (Option.mem_def.mpr hz)) (Option.some.inj hzx).symm

end Dedup

/-! ## `util/shapely.py`: `linetrace`

`linetrace` is decorated by `sequential_deduplication`, so each call (also
the recursive calls on the component lines of a `MultiLineString`) filters
its stream through the deduplicator started at `last = None`.  Coordinates
are shapely `(lng, lat)` pairs; each pair is reversed (`*i[::-1]`) before
being passed to `h3.latlng_to_cell`.  The grid primitives
`h3.latlng_to_cell` and `h3.grid_path_cells` are abstract parameters. -/

/-- A shapely `LineString` (a coordinate sequence) or `MultiLineString`
(a sequence of component `LineString`s). -/
inductive MultiLineOrLine : Type
  | line (coords : List (ℚ × ℚ))
  | multiLine (lines : List (List (ℚ × ℚ)))

/-- The undecorated body of `linetrace` on a `LineString`
(util/shapely.py, lines 93-99): for every consecutive vertex pair, the grid
path between the two endpoint cells, inclusive of both. -/
def linetrace_segments {Cell : Type*} (latlng_to_cell : ℚ → ℚ → ℕ → Cell)
    (grid_path_cells : Cell → Cell → List Cell)
    (coords : List (ℚ × ℚ)) (resolution : ℕ) : List Cell :=
  (coords.zip coords.tail).flatMap fun ij =>
    grid_path_cells (latlng_to_cell ij.1.2 ij.1.1 resolution)
      (latlng_to_cell ij.2.2 ij.2.1 resolution)

/-- The decorated `linetrace` (util/shapely.py, lines 67-101).  On a
`MultiLineString` the source recurses on each component via the decorated
function itself — components of a shapely `MultiLineString` are always
`LineString`s, so that recursive call is the (already deduplicated) line
case, inlined here — and the concatenation passes through the decorator
once more. -/
def linetrace {Cell : Type*} [DecidableEq Cell]
    (latlng_to_cell : ℚ → ℚ → ℕ → Cell)
    (grid_path_cells : Cell → Cell → List Cell) :
    MultiLineOrLine → ℕ → List Cell
  | .line coords, resolution =>
    sequential_deduplication none
      (linetrace_segments latlng_to_cell grid_path_cells coords resolution)
  | .multiLine lines, resolution =>
    sequential_deduplication none
      ((lines.map fun coords =>
        sequential_deduplication none
          (linetrace_segments latlng_to_cell grid_path_cells coords
            resolution)).flatten)

/-- Claim C1: for every LineString or MultiLineString and every resolution,
`linetrace` never yields the same cell twice consecutively; tracing an
empty (or single-point-degenerate) line yields the empty sequence; and the
same cell can still reappear non-consecutively (witnessed by a two-segment
line that returns to its starting cell). -/
theorem linetrace_sequentially_deduplicated :
    (∀ {Cell : Type} [DecidableEq Cell]
       (latlng_to_cell : ℚ → ℚ → ℕ → Cell)
       (grid_path_cells : Cell → Cell → List Cell)
       (geometry : MultiLineOrLine) (resolution : ℕ),
       List.Chain' (· ≠ ·)
         (linetrace latlng_to_cell grid_path_cells geometry resolution)) ∧
    (∀ {Cell : Type} [DecidableEq Cell]
       (latlng_to_cell : ℚ → ℚ → ℕ → Cell)
       (grid_path_cells : Cell → Cell → List Cell)
       (c : ℚ × ℚ) (resolution : ℕ),
       linetrace latlng_to_cell grid_path_cells (.line []) resolution = [] ∧
       linetrace latlng_to_cell grid_path_cells (.line [c]) resolution = []) ∧
    linetrace (fun lat _ _ => if lat = 0 then (0 : ℕ) else 1)
      (fun a b => [a, b]) (.line [(0, 0), (0, 1), (0, 0)]) 9 = [0, 1, 0] := by
  refine ⟨?_, ?_, by decide⟩
  · intro Cell _ f g geometry resolution
    cases geometry <;> exact sequential_deduplication_chain _ none
  · intro Cell _ f g c resolution
    constructor <;> rfl

/-- Claim C9: the sequential-deduplication filter (started at `last = None`,
as the decorator starts it) always produces a sequence with no two equal
consecutive elements; it leaves any such sequence unchanged; in particular
it is idempotent. -/
theorem sequential_deduplication_idempotent {α : Type*} [DecidableEq α]
    (l : List α) :
    List.Chain' (· ≠ ·) (sequential_deduplication none l) ∧
    (List.Chain' (· ≠ ·) l → sequential_deduplication none l = l) ∧
    sequential_deduplication none (sequential_deduplication none l) =
      sequential_deduplication none l := by
  refine ⟨sequential_deduplication_chain l none, ?_, ?_⟩
  · intro hchain
    exact sequential_deduplication_of_chain l none hchain
      (fun z _ => Option.some_ne_none z)
  · exact sequential_deduplication_of_chain _ none
      (sequential_deduplication_chain l none)
      (fun z _ => Option.some_ne_none z)

/-- Witness for C9 at a concrete list: `[1, 2]` is already free of equal
consecutive elements and the filter returns it unchanged. -/
theorem sequential_deduplication_idempotent_witness :
    List.Chain' (· ≠ ·) [1, 2] ∧
    sequential_deduplication none ([1, 2] : List ℕ) = [1, 2] :=
  have hchain : List.Chain' (· ≠ ·) ([1, 2] : List ℕ) :=
    List.chain'_cons.mpr ⟨by decide, List.chain'_singleton 2⟩
  ⟨hchain, (sequential_deduplication_idempotent [1, 2]).2.1 hchain⟩

/-! ## `h3pandas.py`: the row application layer

A dataframe is an association list of `(index cell, other columns)` pairs
in row order; the target column is appended as a third component.

`_apply_index_assign` (h3pandas.py, lines 763-791) maps the guarded
function over the index and assigns the results as a new column
(`processor` is folded into `func`; `finalizer` is the identity in all
claims considered here; the error path of the guard aborts the whole call,
so these definitions model the successful outcome).

`_apply_index_explode` (lines 793-831) builds
`pd.DataFrame.from_dict({address: func(address) for address in index},
orient="index")` — one row per distinct address, one column per list
position, short lists padded with missing values — then `.stack()`, which
keeps exactly one entry per list element (padding is dropped) in list
order, and finally `self._df.join(result)`: a left join on the index, so
every input row appears once per element of its list, and a row whose list
is empty is kept as a single row whose new column is missing (`none`
here).  (That is why `polyfill_resample`, lines 747-755, must drop
`isna` rows afterwards.)  `polyfill(explode=True)` (lines 396-408) uses
`Series.explode`, which likewise turns an empty list into a single missing
entry, followed by the same left join. -/

/-- Model of `_apply_index_assign`: one output row per input row, the new column
holding `func` of the row's index cell. -/
def apply_index_assign {Cell Row β : Type*} (func : Cell → β)
    (df : List (Cell × Row)) : List (Cell × Row × β) :=
  df.map fun ar => (ar.1, ar.2, func ar.1)

/-- Model of `_apply_index_explode`: one output row per element of `func` of the
row's index cell, or a single row with a missing value (`none`) when that
list is empty (pandas left-join semantics, see the section comment). -/
def apply_index_explode {Cell Row β : Type*} (func : Cell → List β)
    (df : List (Cell × Row)) : List (Cell × Row × Option β) :=
  df.flatMap fun ar =>
    match func ar.1 with
    | [] => [(ar.1, ar.2, none)]
    | l => l.map fun b => (ar.1, ar.2, some b)

/-- Claim C2, counterexample: on a one-row table whose per-row sequence is
empty, the exploded output has 1 row, not Σ len = 0: the row does not
disappear. -/
theorem apply_index_explode_count_counterexample :
    (apply_index_explode (fun _ => ([] : List ℕ)) ([(0, ())] : List (ℕ × Unit))).length ≠
      (([(0, ())] : List (ℕ × Unit)).map
        (fun ar => ((fun _ => ([] : List ℕ)) ar.1).length)).sum := by
  decide

/-- Claim C2, amended: the exploded output has Σ over input rows of
`max (len (func address)) 1` rows: rows with a nonempty sequence are
repeated once per element, and rows whose sequence is empty do not
disappear — each is kept as exactly one row whose new column is missing. -/
theorem apply_index_explode_count {Cell Row β : Type*}
    (func : Cell → List β) (df : List (Cell × Row)) :
    (apply_index_explode func df).length =
      (df.map fun ar => max (func ar.1).length 1).sum ∧
    ∀ ar ∈ df, func ar.1 = [] →
      (ar.1, ar.2, (none : Option β)) ∈ apply_index_explode func df := by
  constructor
  · induction df with
    | nil => rfl
    | cons ar tl ih =>
      have step : apply_index_explode func (ar :: tl) =
          (match func ar.1 with
           | [] => [(ar.1, ar.2, (none : Option β))]
           | l => l.map fun b => (ar.1, ar.2, some b)) ++
            apply_index_explode func tl := rfl
      rw [step, List.length_append, ih, List.map_cons, List.sum_cons]
      rcases h : func ar.1 with _ | ⟨b, bs⟩
      · simp [Nat.add_comm]
      · have hmax : max (b :: bs).length 1 = (b :: bs).length := by
          rw [List.length_cons]; exact Nat.max_eq_left (Nat.le_add_left 1 bs.length)
        rw [hmax]; simp [Nat.add_comm]
  · intro ar har hempty
    unfold apply_index_explode
    rw [List.mem_flatMap]
    exact ⟨ar, har, by rw [hempty]; exact List.mem_singleton.mpr rfl⟩

/-- Witness for C2's amended theorem on a concrete two-row table, one row
with a two-element sequence and one with an empty sequence: 3 output rows,
and the empty row survives with a missing value. -/
theorem apply_index_explode_count_witness :
    (apply_index_explode
        (fun a => if a = 0 then [10, 11] else ([] : List ℕ))
        ([(0, ()), (1, ())] : List (ℕ × Unit))).length =
      (([(0, ()), (1, ())] : List (ℕ × Unit)).map
        (fun ar => max ((if ar.1 = 0 then [10, 11] else ([] : List ℕ)).length) 1)).sum ∧
    ((1 : ℕ), (), (none : Option ℕ)) ∈
      apply_index_explode (fun a => if a = 0 then [10, 11] else ([] : List ℕ))
        ([(0, ()), (1, ())] : List (ℕ × Unit)) :=
  ⟨(apply_index_explode_count _ _).1,
   (apply_index_explode_count _ _).2 (1, ()) (by decide) (by decide)⟩

/-- Claim C10: both row-application helpers are pure transformations: erasing
the new column from `_apply_index_assign`'s output returns the input table
exactly (row order and all pre-existing column values intact), and
`_apply_index_explode`'s output projected to the pre-existing columns is
the input table with each row repeated once per produced element (once
with a missing value when the sequence is empty) — every output row's
pre-existing values equal its source row's values. -/
theorem apply_index_pure {Cell Row β γ : Type*}
    (f : Cell → β) (g : Cell → List γ) (df : List (Cell × Row)) :
    (apply_index_assign f df).map (fun x => (x.1, x.2.1)) = df ∧
    (apply_index_explode g df).map (fun x => (x.1, x.2.1)) =
      df.flatMap fun ar => List.replicate (max (g ar.1).length 1) (ar.1, ar.2) := by
  constructor
  · have hid : ((fun x : Cell × Row × β => (x.1, x.2.1)) ∘
        fun ar : Cell × Row => (ar.1, ar.2, f ar.1)) = id := rfl
    simp [apply_index_assign, List.map_map, hid]
  · induction df with
    | nil => rfl
    | cons ar tl ih =>
      have step : apply_index_explode g (ar :: tl) =
          (match g ar.1 with
           | [] => [(ar.1, ar.2, (none : Option γ))]
           | l => l.map fun b => (ar.1, ar.2, some b)) ++
            apply_index_explode g tl := rfl
      rw [step, List.flatMap_cons, List.map_append, ih]
      congr 1
      rcases h : g ar.1 with _ | ⟨b, bs⟩
      · simp
      · have hmax : max (b :: bs).length 1 = (b :: bs).length := by
          rw [List.length_cons]; exact Nat.max_eq_left (Nat.le_add_left 1 bs.length)
        rw [hmax]
        have hcomp : ((fun x : Cell × Row × Option γ => (x.1, x.2.1)) ∘
            fun b : γ => (ar.1, ar.2, some b)) = fun _ : γ => (ar.1, ar.2) := rfl
        simp only [List.length_cons, List.replicate_succ, List.map_cons,
          List.map_map, hcomp, List.map_const']

/-! ## `util/decorator.py`: `catch_invalid_h3_address`

Python exceptions are modelled explicitly.  The guard's `except
(TypeError, ValueError)` clause also catches the grid library's
`H3CellError`, which is a `ValueError` subclass; every other exception
kind propagates unchanged.  `repr(e)` is modelled structurally (the exact
quoting of Python `repr` is immaterial to the claims). -/

/-- The Python exception kinds relevant to the guard.  `h3CellError` is
the grid library's cell error, a subclass of `ValueError`. -/
inductive PyErr : Type
  | typeError (msg : String)
  | valueError (msg : String)
  | h3CellError (msg : String)
  | otherErr (msg : String)
deriving DecidableEq

/-- Whether `except (TypeError, ValueError)` catches the exception:
`TypeError`, `ValueError` and its subclass `H3CellError` are caught. -/
def PyErr.caughtByGuard : PyErr → Bool
  | .typeError _ => true
  | .valueError _ => true
  | .h3CellError _ => true
  | .otherErr _ => false

/-- Python `repr(e)` of an exception, modelled structurally. -/
def PyErr.pyRepr : PyErr → String
  | .typeError m => "TypeError(" ++ m ++ ")"
  | .valueError m => "ValueError(" ++ m ++ ")"
  | .h3CellError m => "H3CellError(" ++ m ++ ")"
  | .otherErr m => "Exception(" ++ m ++ ")"

/-- Outcome of a Python call: a return value or a raised exception. -/
inductive PyResult (β : Type*) : Type _
  | ok (v : β)
  | raised (e : PyErr)
deriving DecidableEq

/-- The message built by the guard (util/decorator.py, lines 28-30):
the fixed preamble, then the caller name with its printed argument
signature, then the repr of the original error. -/
def invalid_address_message (name sig : String) (e : PyErr) : String :=
  "H3 method raised an error. Is the H3 address correct?" ++
    "\nCaller: " ++ name ++ "(" ++ sig ++ ")" ++
    "\nOriginal error: " ++ e.pyRepr

/-- Model of `catch_invalid_h3_address` (util/decorator.py, lines 5-33): the
wrapped call returns `f`'s value, re-raises caught exception kinds as a
`ValueError` carrying `invalid_address_message`, and lets any other
exception propagate.  `name` is `f.__name__` and `sig` prints the argument
list as `_print_signature` does; `α` stands for the argument tuple. -/
def catch_invalid_h3_address {α β : Type*} (name : String) (sig : α → String)
    (f : α → PyResult β) : α → PyResult β :=
  fun a =>
    match f a with
    | .ok v => .ok v
    | .raised e =>
      if e.caughtByGuard then
        .raised (.valueError (invalid_address_message name (sig a) e))
      else .raised e

/-- Claim C3: for every wrapped function and argument list: a returned value
passes through unchanged, and a raised `TypeError`, `ValueError` or
`H3CellError` is re-raised as the single uniform `ValueError` whose
message carries the function's name, its printed arguments, and the
original error. -/
theorem catch_invalid_h3_address_spec {α β : Type*} (name : String)
    (sig : α → String) (f : α → PyResult β) (a : α) :
    (∀ v, f a = .ok v → catch_invalid_h3_address name sig f a = .ok v) ∧
    (∀ e, f a = .raised e → e.caughtByGuard = true →
      catch_invalid_h3_address name sig f a =
        .raised (.valueError
          ("H3 method raised an error. Is the H3 address correct?" ++
            "\nCaller: " ++ name ++ "(" ++ sig a ++ ")" ++
            "\nOriginal error: " ++ e.pyRepr))) := by
  constructor
  · intro v hv
    unfold catch_invalid_h3_address
    rw [hv]
  · intro e he hc
    unfold catch_invalid_h3_address
    rw [he]
    simp only [hc, if_true]
    rfl

/-- Witness for C3: a function raising `TypeError` on the concrete
argument `"INVALID"` is re-raised as the uniform `ValueError` with the
diagnostic message. -/
theorem catch_invalid_h3_address_spec_witness :
    catch_invalid_h3_address "h3_to_geo" (fun a => a)
        (fun _ : String => PyResult.raised (β := ℕ) (.typeError "bad address"))
        "INVALID" =
      .raised (.valueError
        ("H3 method raised an error. Is the H3 address correct?" ++
          "\nCaller: " ++ "h3_to_geo" ++ "(" ++ "INVALID" ++ ")" ++
          "\nOriginal error: " ++ (PyErr.typeError "bad address").pyRepr)) :=
  (catch_invalid_h3_address_spec "h3_to_geo" (fun a => a) _ "INVALID").2
    (.typeError "bad address") rfl rfl

/-! ## `h3pandas.py`: resolution-suffixed column names

`_format_resolution` (lines 841-843) builds the column name
`"h3_" + str(resolution).zfill(2)`.  `geo_to_h3` (line 102) always uses
it.  `h3_to_parent` (line 331) chooses the column with
`self._format_resolution(resolution) if resolution else "h3_parent"`:
Python truthiness, under which both `None` AND `0` select the
`"h3_parent"` branch. -/

/-- Python `str.zfill(width)`: pad on the left with zeros up to `width`. -/
def zfill (width : ℕ) (s : String) : String :=
  if width ≤ s.length then s
  else String.mk (List.replicate (width - s.length) '0') ++ s

/-- Model of `_format_resolution` (h3pandas.py, lines 841-843). -/
def format_resolution (resolution : ℕ) : String :=
  "h3_" ++ zfill 2 (toString resolution)

/-- The column name chosen by `h3_to_parent` (h3pandas.py, line 331):
`_format_resolution(resolution) if resolution else "h3_parent"`, where
`None` and `0` are both falsy. -/
def h3_to_parent_column (resolution : Option ℕ) : String :=
  match resolution with
  | some r => if r = 0 then "h3_parent" else format_resolution r
  | none => "h3_parent"

/-- The column name assigned by `geo_to_h3` (h3pandas.py, line 102). -/
def geo_to_h3_column (resolution : ℕ) : String :=
  format_resolution resolution

/-- Claim C8, counterexample: an explicitly supplied resolution 0 to
`h3_to_parent` does not produce the suffix `"00"`: Python truthiness sends
`0` into the unspecified-resolution branch, so the column is the literal
`"h3_parent"`. -/
theorem h3_to_parent_column_zero_counterexample :
    h3_to_parent_column (some 0) = "h3_parent" ∧
    h3_to_parent_column (some 0) ≠ format_resolution 0 := by
  constructor
  · rfl
  · intro h
    have : ("h3_parent" : String) = "h3_00" := h
    simp at this

/-- Claim C8, amended: for every resolution r in 1-15 explicitly supplied to
`h3_to_parent`, the column name is the two-digit zero-padded
`"h3_" ++ zfill 2 (toString r)` (resolution 5 gives `"h3_05"`);
`geo_to_h3` uses the same scheme for all r in 0-15, so its resolution 0
gives `"h3_00"`; but `h3_to_parent` treats a supplied resolution 0 like an
unspecified one (Python falsiness) and uses the fixed literal
`"h3_parent"`, as it does for `None`. -/
theorem resolution_column_naming (r : ℕ) (h1 : 1 ≤ r) (h15 : r ≤ 15) :
    h3_to_parent_column (some r) = "h3_" ++ zfill 2 (toString r) ∧
    (zfill 2 (toString r)).length = 2 ∧
    geo_to_h3_column r = "h3_" ++ zfill 2 (toString r) ∧
    format_resolution 5 = "h3_05" ∧
    geo_to_h3_column 0 = "h3_00" ∧
    h3_to_parent_column (some 0) = "h3_parent" ∧
    h3_to_parent_column none = "h3_parent" := by
  refine ⟨?_, ?_, rfl, rfl, rfl, rfl, rfl⟩
  · have hr : r ≠ 0 := by omega
    simp [h3_to_parent_column, hr, format_resolution]
  · interval_cases r <;> rfl

/-- Witness for the amended C8 at resolution 5. -/
theorem resolution_column_naming_witness :
    1 ≤ 5 ∧ 5 ≤ 15 ∧ h3_to_parent_column (some 5) = "h3_05" :=
  ⟨by decide, by decide,
    ((resolution_column_naming 5 (by decide) (by decide)).1).trans rfl⟩

/-! ## `h3pandas.py`: `k_ring_smoothing` (lines 572-707)

The smoothing input is a table with one numeric column, modelled as
`List (Cell × ℚ)` (index cell, value).  The grid primitives `h3.k_ring`
and `h3.hex_ring` are abstract parameters.  `pandas.groupby(key)` sorts
the distinct keys ascending (string keys sort lexicographically; the
linear order on `Cell` abstracts that) and drops rows whose key is
missing; `.sum()` then sums the numeric column per key.  The model stops
at the value table the method calls `result`; `return_geometry=True` only
appends each destination cell's boundary polygon, a pure function of the
index, so equal value tables stay equal after it. -/

/-- pandas `groupby(key).sum()` over `(key, value)` rows: one output row
per distinct key, keys sorted ascending, values summed per key. -/
def groupby_sum {Cell : Type*} [LinearOrder Cell]
    (rows : List (Cell × ℚ)) : List (Cell × ℚ) :=
  (List.insertionSort (· ≤ ·) (rows.map Prod.fst).dedup).map fun k =>
    (k, ((rows.filter fun r => r.1 = k).map Prod.snd).sum)

/-- Model of `groupby` over exploded rows `(origin index, value, ring-cell column)`:
rows whose ring-cell entry is missing (the `none` a left join leaves on an
empty ring, pandas `NaN`) are dropped by `groupby`, the rest are grouped
by ring cell and their values summed. -/
def groupby_ring_sum {Cell : Type*} [LinearOrder Cell]
    (rows : List (Cell × ℚ × Option Cell)) : List (Cell × ℚ) :=
  groupby_sum (rows.filterMap fun r => r.2.2.map fun c => (c, r.2.1))

/-- The unweighted branch (h3pandas.py, lines 672-680):
`k_ring(k, explode=True)`, `groupby("h3_k_ring").sum()`, then division of
every summed value by `1 + 3*k*(k+1)`. -/
def k_ring_unweighted {Cell : Type*} [LinearOrder Cell]
    (k_ring : Cell → ℕ → List Cell) (df : List (Cell × ℚ)) (k : ℕ) :
    List (Cell × ℚ) :=
  (groupby_ring_sum (apply_index_explode (fun a => k_ring a k) df)).map
    fun kv => (kv.1, kv.2 / (1 + 3 * k * (k + 1)))

/-- Weight normalization (h3pandas.py, lines 686-688): multipliers
`[1, 6, 12, 18, ...]`, each weight divided by `Σ weights[j]*multipliers[j]`. -/
def normalize_weights (ws : List ℚ) : List ℚ :=
  let multipliers : List ℚ :=
    1 :: (List.range' 1 (ws.length - 1)).map fun i => (i : ℚ) * 6
  let total := (List.zipWith (· * ·) ws multipliers).sum
  ws.map fun w => w / total

/-- The weighted branch (h3pandas.py, lines 685-705): for each ring index
`i`, `hex_ring(i, explode=True)` with the numeric column multiplied by the
normalized weight `weights[i]`, all concatenated, then
`groupby("h3_hex_ring").sum()`. -/
def k_ring_weighted {Cell : Type*} [LinearOrder Cell]
    (hex_ring : Cell → ℕ → List Cell) (df : List (Cell × ℚ))
    (ws : List ℚ) : List (Cell × ℚ) :=
  let w := normalize_weights ws
  groupby_ring_sum ((List.range ws.length).flatMap fun i =>
    (apply_index_explode (fun a => hex_ring a i) df).map fun r =>
      (r.1, r.2.1 * w.getD i 0, r.2.2))

/-- Model of `k_ring_smoothing` (h3pandas.py, lines 572-707), following the
source's control flow: first the exactly-one-of-`k`-and-`weights` check;
then, when all supplied weights are equal (`len(set(weights)) == 1`,
i.e. one distinct element), the reduction to the unweighted case with
`k = len(weights) - 1`; then the unweighted branch; then the empty-weights
check; then the weighted branch. -/
def k_ring_smoothing {Cell : Type*} [LinearOrder Cell]
    (k_ring hex_ring : Cell → ℕ → List Cell) (df : List (Cell × ℚ))
    (k? : Option ℕ) (weights? : Option (List ℚ)) :
    Except String (List (Cell × ℚ)) :=
  match k?, weights? with
  | none, none => .error "Exactly one of k and weights must be set."
  | some _, some _ => .error "Exactly one of k and weights must be set."
  | some k, none => .ok (k_ring_unweighted k_ring df k)
  | none, some ws =>
    if ws.dedup.length = 1 then
      .ok (k_ring_unweighted k_ring df (ws.length - 1))
    else if ws.length = 0 then .error "Weights cannot be empty."
    else .ok (k_ring_weighted hex_ring df ws)

section SmoothingLemmas

variable {Cell : Type*} [LinearOrder Cell]

theorem dedup_replicate_succ {α : Type*} [DecidableEq α] (n : ℕ) (c : α) :
    (List.replicate (n + 1) c).dedup = [c] := by
  induction n with
  | zero => rfl
  | succ m ih =>
    rw [List.replicate_succ, List.dedup_cons_of_mem (by simp [List.mem_replicate]),
      ih]

theorem map_keys_filter_sum (rows : List (Cell × ℚ))
    (hnd : (rows.map Prod.fst).Nodup) :
    (rows.map Prod.fst).map
        (fun k => (k, ((rows.filter fun r => r.1 = k).map Prod.snd).sum)) =
      rows := by
  induction rows with
  | nil => rfl
  | cons p tl ih =>
    rw [List.map_cons] at hnd
    rw [List.nodup_cons] at hnd
    have hne : ∀ r ∈ tl, ¬(r.1 = p.1) := by
      intro r hr hrp
      exact hnd.1 (hrp ▸ List.mem_map_of_mem Prod.fst hr)
    rw [List.map_cons, List.map_cons]
    congr 1
    · have hfil : tl.filter (fun r => r.1 = p.1) = [] :=
        List.filter_eq_nil_iff.mpr (by simpa using hne)
      simp [List.filter_cons, hfil]
    · have hstep : (tl.map Prod.fst).map
          (fun k => (k, (((p :: tl).filter fun r => r.1 = k).map Prod.snd).sum)) =
          (tl.map Prod.fst).map
            (fun k => (k, ((tl.filter fun r => r.1 = k).map Prod.snd).sum)) := by
        refine List.map_congr_left ?_
        intro k hk
        have hpk : ¬(p.1 = k) := by
          intro hpk
          exact hnd.1 (hpk ▸ hk)
        simp [List.filter_cons, hpk]
      rw [hstep]
      exact ih hnd.2

/-- On rows with pairwise-distinct keys, pandas `groupby(key).sum()` is a
permutation of the input rows (each singleton group sums to its own
value), with keys in sorted order. -/
theorem groupby_sum_nodup (rows : List (Cell × ℚ))
    (hnd : (rows.map Prod.fst).Nodup) :
    List.Perm (groupby_sum rows) rows ∧
      ((groupby_sum rows).map Prod.fst).Sorted (· ≤ ·) := by
  have hded : (rows.map Prod.fst).dedup = rows.map Prod.fst :=
    List.dedup_eq_self.mpr hnd
  constructor
  · unfold groupby_sum
    rw [hded]
    calc List.Perm
          ((List.insertionSort (· ≤ ·) (rows.map Prod.fst)).map
            (fun k => (k, ((rows.filter fun r => r.1 = k).map Prod.snd).sum)))
          ((rows.map Prod.fst).map
            (fun k => (k, ((rows.filter fun r => r.1 = k).map Prod.snd).sum))) :=
        (List.perm_insertionSort _ _).map _
      _ = rows := map_keys_filter_sum rows hnd
  · unfold groupby_sum
    rw [hded]
    have hfst : ((List.insertionSort (· ≤ ·) (rows.map Prod.fst)).map
          (fun k => (k, ((rows.filter fun r => r.1 = k).map Prod.snd).sum))).map
        Prod.fst = List.insertionSort (· ≤ ·) (rows.map Prod.fst) := by
      rw [List.map_map]
      exact List.map_id _
    rw [hfst]
    exact List.sorted_insertionSort _ _

end SmoothingLemmas

/-- Claim C4: calling `k_ring_smoothing` with a constant weight vector of
length `k+1` takes the equal-weights reduction (`len(set(weights)) == 1`)
and is literally the unweighted computation with `k = len(weights) - 1`:
the two calls return identical results. -/
theorem k_ring_smoothing_equal_weights {Cell : Type*} [LinearOrder Cell]
    (k_ring hex_ring : Cell → ℕ → List Cell) (df : List (Cell × ℚ))
    (k : ℕ) (c : ℚ) :
    k_ring_smoothing k_ring hex_ring df none (some (List.replicate (k + 1) c)) =
      k_ring_smoothing k_ring hex_ring df (some k) none := by
  have h1 : k_ring_smoothing k_ring hex_ring df none
        (some (List.replicate (k + 1) c)) =
      if (List.replicate (k + 1) c).dedup.length = 1 then
        Except.ok (k_ring_unweighted k_ring df
          ((List.replicate (k + 1) c).length - 1))
      else if (List.replicate (k + 1) c).length = 0 then
        Except.error "Weights cannot be empty."
      else Except.ok (k_ring_weighted hex_ring df (List.replicate (k + 1) c)) :=
    rfl
  rw [h1, dedup_replicate_succ k c]
  simp [k_ring_smoothing]

/-- Claim C6: `k_ring_smoothing` raises a configuration error exactly when
the request is misconfigured: both or neither of `k` and `weights`
supplied, or an empty weight vector; every well-configured call reaches a
result.  (Both checks fire before any computation on the table: the
exactly-one check is the method's first statement, and the empty-weights
check precedes the weighted computation, the unweighted branch being
unreachable for a supplied weight vector.) -/
theorem k_ring_smoothing_config_error_iff {Cell : Type*} [LinearOrder Cell]
    (k_ring hex_ring : Cell → ℕ → List Cell) (df : List (Cell × ℚ))
    (k? : Option ℕ) (weights? : Option (List ℚ)) :
    (∃ e, k_ring_smoothing k_ring hex_ring df k? weights? = .error e) ↔
      (k?.isSome ∧ weights?.isSome) ∨ (k? = none ∧ weights? = none) ∨
        weights? = some [] := by
  rcases k? with _ | k <;> rcases weights? with _ | ws
  · simp [k_ring_smoothing]
  · rcases ws with _ | ⟨w, ws'⟩
    · simp [k_ring_smoothing]
    · by_cases hd : ((w :: ws').dedup.length = 1)
      · simp [k_ring_smoothing, hd]
      · simp [k_ring_smoothing, hd]
  · simp [k_ring_smoothing]
  · simp [k_ring_smoothing]

theorem apply_index_explode_of_singleton {Cell Row : Type*}
    (func : Cell → List Cell) (h : ∀ a, func a = [a])
    (df : List (Cell × Row)) :
    apply_index_explode func df = df.map fun ar => (ar.1, ar.2, some ar.1) := by
  induction df with
  | nil => rfl
  | cons ar tl ih =>
    have step : apply_index_explode func (ar :: tl) =
        (match func ar.1 with
         | [] => [(ar.1, ar.2, none)]
         | l => l.map fun b => (ar.1, ar.2, some b)) ++
          apply_index_explode func tl := rfl
    rw [step, h ar.1, ih]
    rfl

theorem filterMap_ring_of_own_cell {Cell : Type*} (df : List (Cell × ℚ)) :
    (df.map fun ar => (ar.1, ar.2, some ar.1)).filterMap
        (fun r => r.2.2.map fun c => (c, r.2.1)) = df := by
  induction df with
  | nil => rfl
  | cons p tl ih =>
    rw [List.map_cons, List.filterMap_cons]
    simpa using ih

/-- Claim C7: with the grid contract `k_ring(a, 0) = [a]` and a table with
pairwise-distinct cell index, `k_ring_smoothing(0)` returns exactly the
input rows (values untouched: summed over singleton groups and divided by
`1 + 3*0*1 = 1`), re-indexed by destination cell in sorted order; and a
single-element weight vector takes the equal-weights reduction to exactly
that same call. -/
theorem k_ring_smoothing_zero_identity {Cell : Type*} [LinearOrder Cell]
    (k_ring hex_ring : Cell → ℕ → List Cell) (df : List (Cell × ℚ))
    (h0 : ∀ a, k_ring a 0 = [a]) (hnd : (df.map Prod.fst).Nodup) :
    (∃ out, k_ring_smoothing k_ring hex_ring df (some 0) none = .ok out ∧
       List.Perm out df ∧ (out.map Prod.fst).Sorted (· ≤ ·)) ∧
    ∀ w : ℚ, k_ring_smoothing k_ring hex_ring df none (some [w]) =
      k_ring_smoothing k_ring hex_ring df (some 0) none := by
  have hout : k_ring_unweighted k_ring df 0 = groupby_sum df := by
    unfold k_ring_unweighted groupby_ring_sum
    rw [apply_index_explode_of_singleton _ h0 df, filterMap_ring_of_own_cell df]
    norm_num
  constructor
  · refine ⟨k_ring_unweighted k_ring df 0, rfl, ?_, ?_⟩
    · rw [hout]
      exact (groupby_sum_nodup df hnd).1
    · rw [hout]
      exact (groupby_sum_nodup df hnd).2
  · intro w
    have h1 : k_ring_smoothing k_ring hex_ring df none (some [w]) =
        if ([w] : List ℚ).dedup.length = 1 then
          Except.ok (k_ring_unweighted k_ring df (([w] : List ℚ).length - 1))
        else if ([w] : List ℚ).length = 0 then
          Except.error "Weights cannot be empty."
        else Except.ok (k_ring_weighted hex_ring df [w]) := rfl
    rw [h1]
    simp [k_ring_smoothing]

/-- Witness for C7: a concrete two-row table with distinct cells `2, 1`
and the contract grid function; smoothing at `k = 0` returns the rows
sorted by cell with values unchanged. -/
theorem k_ring_smoothing_zero_identity_witness :
    ∃ out, k_ring_smoothing (fun a _ => [a]) (fun _ _ => ([] : List ℕ))
        [(2, (5 : ℚ)), (1, 7)] (some 0) none = .ok out ∧
      List.Perm out [(2, (5 : ℚ)), (1, 7)] ∧
      (out.map Prod.fst).Sorted (· ≤ ·) :=
  (k_ring_smoothing_zero_identity (fun a _ => [a]) (fun _ _ => ([] : List ℕ))
    [(2, (5 : ℚ)), (1, 7)] (fun _ => rfl) (by decide)).1

/-- Claim C5: in weighted mode, the weight vector is normalized by dividing
each weight by `Σ weights[j] * multipliers[j]` with multipliers
`[1, 6, 12, ...]`: for `weights = [2, 1]` that total is `2*1 + 1*6 = 8`,
so the normalized weights are `[1/4, 1/8]`; and on a single row of value 1
whose hex rings are `[o]` at distance 0 and six distinct neighbor cells at
distance 1, the result gives exactly `1/4` to the origin and `1/8` to each
of the 6 neighbors, summing to 1 over the 7 cells. -/
theorem k_ring_smoothing_weighted_2_1 {Cell : Type*} [LinearOrder Cell]
    (k_ring hex_ring : Cell → ℕ → List Cell) (o : Cell) (ns : List Cell)
    (h0 : hex_ring o 0 = [o]) (h1 : hex_ring o 1 = ns)
    (hnd : ns.Nodup) (ho : o ∉ ns) (hlen : ns.length = 6) :
    normalize_weights [2, 1] = [1/4, 1/8] ∧
    ∃ out, k_ring_smoothing k_ring hex_ring [(o, 1)] none (some [2, 1]) =
        .ok out ∧
      List.Perm out ((o, (1 : ℚ)/4) :: ns.map fun c => (c, (1 : ℚ)/8)) ∧
      (out.map Prod.snd).sum = 1 ∧ out.length = 7 := by
  have hNW : normalize_weights [2, 1] = [1/4, 1/8] := by
    simp [normalize_weights, List.range'_succ]
    norm_num
  refine ⟨hNW, ?_⟩
  have h2 : k_ring_smoothing k_ring hex_ring [(o, 1)] none (some [2, 1]) =
      Except.ok (k_ring_weighted hex_ring [(o, 1)] [2, 1]) := by
    have hif : k_ring_smoothing k_ring hex_ring [(o, 1)] none (some [2, 1]) =
        if ([2, 1] : List ℚ).dedup.length = 1 then
          Except.ok (k_ring_unweighted k_ring [(o, 1)]
            (([2, 1] : List ℚ).length - 1))
        else if ([2, 1] : List ℚ).length = 0 then
          Except.error "Weights cannot be empty."
        else Except.ok (k_ring_weighted hex_ring [(o, 1)] [2, 1]) := rfl
    rw [hif, if_neg (by decide), if_neg (by decide)]
  have hexp0 : apply_index_explode (fun a => hex_ring a 0) [(o, (1 : ℚ))] =
      [(o, (1 : ℚ), some o)] := by
    unfold apply_index_explode
    simp [h0]
  obtain ⟨n0, ns', hns⟩ : ∃ n0 ns', ns = n0 :: ns' := by
    cases ns with
    | nil => simp at hlen
    | cons a b => exact ⟨a, b, rfl⟩
  have hexp1 : apply_index_explode (fun a => hex_ring a 1) [(o, (1 : ℚ))] =
      ns.map fun b => (o, (1 : ℚ), some b) := by
    unfold apply_index_explode
    simp [h1, hns]
  have hwei : k_ring_weighted hex_ring [(o, 1)] [2, 1] =
      groupby_sum ((o, (1 : ℚ)/4) :: ns.map fun b => (b, (1 : ℚ)/8)) := by
    unfold k_ring_weighted groupby_ring_sum
    rw [hNW]
    have hrange : List.range ([2, 1] : List ℚ).length = [0, 1] := rfl
    rw [hrange]
    simp only [List.flatMap_cons, List.flatMap_nil, List.append_nil,
      hexp0, hexp1, List.map_cons, List.map_nil, List.map_map]
    congr 1
    simp [Function.comp, List.filterMap_cons, List.filterMap_map]
    norm_num
    have hcomp2 : ((fun r : Cell × ℚ × Option Cell =>
        Option.map (fun c => (c, r.2.1)) r.2.2) ∘
          (fun r : Cell × ℚ × Option Cell => (r.1, r.2.1 * (1 / 8), r.2.2)) ∘
          fun b : Cell => (o, (1 : ℚ), some b)) =
        some ∘ fun b : Cell => (b, (1 : ℚ) * (1 / 8)) := rfl
    rw [hcomp2, List.filterMap_eq_map]
    simp
  have hkeys : (((o, (1 : ℚ)/4) :: ns.map fun b => (b, (1 : ℚ)/8)).map
      Prod.fst).Nodup := by
    have : ((o, (1 : ℚ)/4) :: ns.map fun b => (b, (1 : ℚ)/8)).map Prod.fst =
        o :: ns := by
      rw [List.map_cons, List.map_map]
      congr 1
      exact List.map_id ns
    rw [this, List.nodup_cons]
    exact ⟨ho, hnd⟩
  have hperm := (groupby_sum_nodup _ hkeys).1
  refine ⟨groupby_sum ((o, (1 : ℚ)/4) :: ns.map fun b => (b, (1 : ℚ)/8)),
    by rw [h2, hwei], hperm, ?_, ?_⟩
  · rw [(hperm.map Prod.snd).sum_eq]
    rw [List.map_cons, List.map_map]
    have hconst : (Prod.snd ∘ fun b : Cell => (b, (1 : ℚ)/8)) =
        fun _ : Cell => (1 : ℚ)/8 := rfl
    rw [hconst, List.map_const', hlen, List.sum_cons, List.sum_replicate]
    norm_num
  · rw [hperm.length_eq]
    simp [hlen]

/-- Witness for C5 at a concrete grid: origin cell `0` with neighbor cells
`1..6`. -/
theorem k_ring_smoothing_weighted_2_1_witness :
    ∃ out, k_ring_smoothing (fun (_ : ℕ) (_ : ℕ) => ([] : List ℕ))
        (fun c i => if i = 0 then [c] else if c = 0 then [1, 2, 3, 4, 5, 6]
          else [])
        [(0, 1)] none (some [2, 1]) = .ok out ∧
      List.Perm out ((0, (1 : ℚ)/4) ::
        [1, 2, 3, 4, 5, 6].map fun c => (c, (1 : ℚ)/8)) ∧
      (out.map Prod.snd).sum = 1 ∧ out.length = 7 :=
  (k_ring_smoothing_weighted_2_1 (fun _ _ => ([] : List ℕ))
    (fun c i => if i = 0 then [c] else if c = 0 then [1, 2, 3, 4, 5, 6]
      else [])
    0 [1, 2, 3, 4, 5, 6] rfl rfl (by decide) (by decide) (by decide)).2

end H3Pandas
